import Mathlib

/-
  Verification of the caption-reconciliation engine of
  google-meet-transcriber-extension (src/content.js).

  The JavaScript is embedded shallowly:
  * `TranscriptEntry`, `SessionState` mirror the `state` object (content.js
    lines 21-29): `transcript` is the array of `{ ts, speaker, text }`
    records, `lastBySpeaker` the per-speaker last-text object (modelled as
    an insertion-ordered association list, matching JS object key order),
    `meetingId` the string id derived from the URL.
  * `stepEntry` is one iteration of the `for (const { speaker, text } of
    entries)` loop of `processCaptions` (lines 137-165); `reconcile` is the
    whole loop, with `changed` the OR of the per-entry flags, exactly as
    the loop accumulates it.  `formatTime(new Date())` is abstracted as the
    `now : String` argument of one invocation.
  * `parseCaptions` mirrors the parser (lines 96-125) over a `Node` tree
    model of the DOM; `textContent` concatenates all descendant text,
    `elemChildren` models the `children` element collection.  The JS
    whitespace class `\s` is modelled by the four common whitespace
    characters, which covers every string considered here.
  * `handleNavigation` / `tryNarrowObserverState` mirror lines 187-200 and
    226-237, with the result of `getCaptionContainer()` passed in as an
    `Option Node` and chrome.storage modelled by two optional fields.
-/

/-- One transcript line: `{ ts, speaker, text }` (content.js line 22). -/
structure TranscriptEntry where
  ts : String
  speaker : String
  text : String
deriving DecidableEq

/-- One parsed caption block: `{ speaker, text }` (content.js line 97). -/
structure ParsedEntry where
  speaker : String
  text : String
deriving DecidableEq

/-- The engine state: `state.transcript`, `state.lastBySpeaker`,
`state.meetingId` (content.js lines 21-29). -/
structure SessionState where
  transcript : List TranscriptEntry
  lastBySpeaker : List (String × String)
  meetingId : String
deriving DecidableEq

/-- JS object property read `m[k]`: first (unique-key) match. -/
def lookupKey : List (String × String) → String → Option String
  | [], _ => none
  | (k, v) :: rest, key => if k = key then some v else lookupKey rest key

/-- JS object property write `m[k] = v`: overwrite in place, else append
(JS objects keep string keys in insertion order). -/
def setKey : List (String × String) → String → String → List (String × String)
  | [], k, v => [(k, v)]
  | (k', v') :: rest, k, v =>
    if k' = k then (k, v) :: rest else (k', v') :: setKey rest k v

/-- `pre` is a prefix of `s`, over character lists. -/
def isPrefixChars : List Char → List Char → Bool
  | [], _ => true
  | _ :: _, [] => false
  | a :: as, b :: bs => a == b && isPrefixChars as bs

/-- JS `s.startsWith(pre)`. -/
def strStartsWith (s pre : String) : Bool :=
  isPrefixChars pre.data s.data

/-- JS `transcript[transcript.length - 1].text = text; ... .ts = now`
(content.js lines 152-154): replace the last element's `text` and `ts`. -/
def updateLast (now text : String) : List TranscriptEntry → List TranscriptEntry
  | [] => []
  | [last] => [{ last with text := text, ts := now }]
  | e :: e' :: rest => e :: updateLast now text (e' :: rest)

/-- JS `transcript[transcript.length - 1]` (none when the array is empty). -/
def lastEntry? : List TranscriptEntry → Option TranscriptEntry
  | [] => none
  | [e] => some e
  | _ :: e' :: rest => lastEntry? (e' :: rest)

/-- The continuation test of content.js lines 144-148:
`prev && transcript.length > 0 && text.startsWith(prev) &&
transcript[transcript.length - 1].speaker === speaker`
(`prev` truthy = defined and non-empty; the two-scrutinee match covers
both the definedness of `prev` and `transcript.length > 0`). -/
def isContinuation (s : SessionState) (e : ParsedEntry) : Bool :=
  match lookupKey s.lastBySpeaker e.speaker, lastEntry? s.transcript with
  | some p, some last =>
    !(p == "") && strStartsWith e.text p && (last.speaker == e.speaker)
  | _, _ => false

/-- One iteration of the `for (const { speaker, text } of entries)` loop of
`processCaptions` (content.js lines 137-165).  Returns the new state and
whether this entry set `changed = true`. -/
def stepEntry (now : String) (s : SessionState) (e : ParsedEntry) :
    SessionState × Bool :=
  if e.text = "" ∨ lookupKey s.lastBySpeaker e.speaker = some e.text then
    (s, false)
  else if isContinuation s e then
    ({ transcript := updateLast now e.text s.transcript,
       lastBySpeaker := setKey s.lastBySpeaker e.speaker e.text,
       meetingId := s.meetingId }, true)
  else
    ({ transcript := s.transcript ++ [{ ts := now, speaker := e.speaker, text := e.text }],
       lastBySpeaker := setKey s.lastBySpeaker e.speaker e.text,
       meetingId := s.meetingId }, true)

/-- The whole reconciliation loop of `processCaptions` (content.js lines
135-165): fold `stepEntry` over the parsed entries in order; `changed` is
the OR of the per-entry flags, exactly as the loop's `changed` variable. -/
def reconcile (now : String) : SessionState → List ParsedEntry → SessionState × Bool
  | s, [] => (s, false)
  | s, e :: es =>
    let r := stepEntry now s e
    let rest := reconcile now r.1 es
    (rest.1, r.2 || rest.2)

/-- The `clear` message handler (content.js lines 251-257): empties
`transcript` and `lastBySpeaker`, keeps `meetingId`. -/
def clearSession (s : SessionState) : SessionState :=
  { s with transcript := [], lastBySpeaker := [] }

/-- The session part of `handleNavigation`'s reset branch (content.js
lines 230-232). -/
def resetSession (_s : SessionState) (newId : String) : SessionState :=
  { transcript := [], lastBySpeaker := [], meetingId := newId }

/-- The state after `init` (content.js lines 202-212): `meetingId` derived,
`lastBySpeaker` the fresh empty object, and `transcript` set to the
restored array when the stored meeting id matches (or `[]` otherwise /
when nothing is stored).  Note `init` never rebuilds `lastBySpeaker`
from the restored transcript. -/
def initState (stored : List TranscriptEntry) (mid : String) : SessionState :=
  { transcript := stored, lastBySpeaker := [], meetingId := mid }

/-- One observable operation on the session state. -/
inductive SessionStep : SessionState → SessionState → Prop where
  | reconcile (now : String) (es : List ParsedEntry) {s : SessionState} :
      SessionStep s (reconcile now s es).1
  | clear {s : SessionState} : SessionStep s (clearSession s)
  | reset (newId : String) {s : SessionState} : SessionStep s (resetSession s newId)

/-- States reachable after `init` (possibly restoring a stored transcript)
followed by any sequence of reconcile, clear and meeting-change reset. -/
inductive Reachable : SessionState → Prop where
  | init (stored : List TranscriptEntry) (mid : String) :
      Reachable (initState stored mid)
  | step {s s' : SessionState} : Reachable s → SessionStep s s' → Reachable s'

/-- States reachable from a fresh session (no stored transcript restored). -/
inductive ReachableFresh : SessionState → Prop where
  | init (mid : String) : ReachableFresh (initState [] mid)
  | step {s s' : SessionState} :
      ReachableFresh s → SessionStep s s' → ReachableFresh s'

/-- Claim C1: starting from an empty SessionState, the four reconcile calls
with parsed snapshots `[{Alice, "Hi"}]`, `[{Alice, "Hi there"}]`,
`[{Bob, "Hey"}]`, `[{Alice, "Hi there everyone"}]` produce a final
transcript of exactly 3 entries, in order Alice:"Hi there", Bob:"Hey",
Alice:"Hi there everyone". -/
theorem C1_end_to_end :
    let s0 : SessionState := { transcript := [], lastBySpeaker := [], meetingId := "m" }
    let s1 := (reconcile "t1" s0 [{ speaker := "Alice", text := "Hi" }]).1
    let s2 := (reconcile "t2" s1 [{ speaker := "Alice", text := "Hi there" }]).1
    let s3 := (reconcile "t3" s2 [{ speaker := "Bob", text := "Hey" }]).1
    let s4 := (reconcile "t4" s3 [{ speaker := "Alice", text := "Hi there everyone" }]).1
    s4.transcript.length = 3 ∧
    s4.transcript.map (fun e => (e.speaker, e.text)) =
      [("Alice", "Hi there"), ("Bob", "Hey"), ("Alice", "Hi there everyone")] := by
  decide


/- Basic lemmas about the embedded primitives. -/

theorem lookupKey_setKey_self (m : List (String × String)) (k v : String) :
    lookupKey (setKey m k v) k = some v := by
  induction m with
  | nil => simp [setKey, lookupKey]
  | cons p rest ih =>
    by_cases h : p.1 = k
    · simp [setKey, h, lookupKey]
    · simp [setKey, h, lookupKey, ih]

theorem lookupKey_setKey_ne (m : List (String × String)) (k v k' : String)
    (h : k' ≠ k) : lookupKey (setKey m k v) k' = lookupKey m k' := by
  have hk : k ≠ k' := Ne.symm h
  induction m with
  | nil => simp [setKey, lookupKey, hk]
  | cons p rest ih =>
    by_cases hp : p.1 = k
    · have hp' : p.1 ≠ k' := by rw [hp]; exact hk
      simp [setKey, hp, lookupKey, hk, hp']
    · simp [setKey, hp, lookupKey, ih]

theorem mem_setKey {m : List (String × String)} {k v : String} {p : String × String}
    (h : p ∈ setKey m k v) : p = (k, v) ∨ p ∈ m := by
  induction m with
  | nil => simpa [setKey] using h
  | cons q rest ih =>
    by_cases hq : q.1 = k
    · simp [setKey, hq] at h
      rcases h with h | h
      · exact Or.inl h
      · exact Or.inr (List.mem_cons_of_mem _ h)
    · simp [setKey, hq] at h
      rcases h with h | h
      · exact Or.inr (by simp [h])
      · rcases ih h with h' | h'
        · exact Or.inl h'
        · exact Or.inr (List.mem_cons_of_mem _ h')

theorem updateLast_length (now t : String) :
    ∀ l : List TranscriptEntry, (updateLast now t l).length = l.length
  | [] => by simp [updateLast]
  | [x] => by simp [updateLast]
  | x :: y :: rest => by
    simp only [updateLast, List.length_cons]
    exact congrArg (· + 1) (updateLast_length now t (y :: rest))

theorem lastEntry?_updateLast (now t : String) :
    ∀ (l : List TranscriptEntry) (a : TranscriptEntry), lastEntry? l = some a →
      lastEntry? (updateLast now t l) = some { a with text := t, ts := now }
  | [], a, h => by simp [lastEntry?] at h
  | [x], a, h => by
    simp only [lastEntry?, Option.some.injEq] at h
    subst h
    simp [updateLast, lastEntry?]
  | x :: y :: rest, a, h => by
    have h' : lastEntry? (y :: rest) = some a := by
      simpa only [lastEntry?] using h
    have ih := lastEntry?_updateLast now t (y :: rest) a h'
    simp only [updateLast]
    cases hu : updateLast now t (y :: rest) with
    | nil => simp [hu] at ih; exact absurd ih (by simp [lastEntry?])
    | cons u us =>
      simp only [lastEntry?]
      rw [← hu]
      exact ih

theorem getElem?_updateLast (now t : String) :
    ∀ (l : List TranscriptEntry) (i : Nat), i + 1 < l.length →
      (updateLast now t l)[i]? = l[i]?
  | [], _, h => by simp at h
  | [_], i, h => by simp at h
  | x :: y :: rest, 0, _ => by simp [updateLast]
  | x :: y :: rest, i + 1, h => by
    have ih := getElem?_updateLast now t (y :: rest) i (by simpa using h)
    simpa [updateLast] using ih

theorem speaker_getElem?_updateLast (now t : String) :
    ∀ (l : List TranscriptEntry) (i : Nat), i < l.length →
      ((updateLast now t l)[i]?).map TranscriptEntry.speaker =
        (l[i]?).map TranscriptEntry.speaker
  | [], _, h => by simp at h
  | [x], 0, _ => by simp [updateLast]
  | [x], i + 1, h => by simp at h
  | x :: y :: rest, 0, _ => by simp [updateLast]
  | x :: y :: rest, i + 1, h => by
    have ih := speaker_getElem?_updateLast now t (y :: rest) i (by simpa using h)
    simpa [updateLast] using ih

theorem mem_updateLast (now t : String) :
    ∀ {l : List TranscriptEntry} {x : TranscriptEntry}, x ∈ updateLast now t l →
      ∃ y ∈ l, x.speaker = y.speaker
  | [], x, h => by simp [updateLast] at h
  | [e], x, h => by
    simp only [updateLast, List.mem_singleton] at h
    exact ⟨e, by simp, by simp [h]⟩
  | e :: e' :: rest, x, h => by
    rcases (by simpa only [updateLast, List.mem_cons] using h :
        x = e ∨ x ∈ updateLast now t (e' :: rest)) with h' | h'
    · exact ⟨e, by simp, by simp [h']⟩
    · rcases mem_updateLast now t h' with ⟨y, hy, hxy⟩
      exact ⟨y, List.mem_cons_of_mem _ hy, hxy⟩

theorem lastEntry?_concat (e : TranscriptEntry) :
    ∀ l : List TranscriptEntry, lastEntry? (l ++ [e]) = some e
  | [] => by simp [lastEntry?]
  | [x] => by simp [lastEntry?]
  | x :: y :: rest => by
    have ih := lastEntry?_concat e (y :: rest)
    simpa [lastEntry?] using ih

theorem lastEntry?_mem :
    ∀ {l : List TranscriptEntry} {a : TranscriptEntry}, lastEntry? l = some a → a ∈ l
  | [], a, h => by simp [lastEntry?] at h
  | [x], a, h => by
    simp only [lastEntry?, Option.some.injEq] at h
    simp [h]
  | x :: y :: rest, a, h => by
    have h' : lastEntry? (y :: rest) = some a := by simpa only [lastEntry?] using h
    exact List.mem_cons_of_mem _ (lastEntry?_mem h')

theorem lastEntry?_isSome_of_ne_nil :
    ∀ {l : List TranscriptEntry}, l ≠ [] → (lastEntry? l).isSome
  | [], h => absurd rfl h
  | [x], _ => by simp [lastEntry?]
  | x :: y :: rest, _ => by
    have ih := lastEntry?_isSome_of_ne_nil (l := y :: rest) (by simp)
    simpa [lastEntry?] using ih

theorem getElem?_append_left' {α : Type} (l l' : List α) (i : Nat)
    (h : i < l.length) : (l ++ l')[i]? = l[i]? := by
  rw [List.getElem?_append]
  simp [h]

/- Unfolding lemmas for `stepEntry` and `reconcile`. -/

theorem stepEntry_skip (now : String) (s : SessionState) (e : ParsedEntry)
    (h : e.text = "" ∨ lookupKey s.lastBySpeaker e.speaker = some e.text) :
    stepEntry now s e = (s, false) := by
  simp [stepEntry, h]

theorem stepEntry_cont (now : String) (s : SessionState) (e : ParsedEntry)
    (hg : ¬(e.text = "" ∨ lookupKey s.lastBySpeaker e.speaker = some e.text))
    (hc : isContinuation s e = true) :
    stepEntry now s e =
      ({ transcript := updateLast now e.text s.transcript,
         lastBySpeaker := setKey s.lastBySpeaker e.speaker e.text,
         meetingId := s.meetingId }, true) := by
  simp [stepEntry, hg, hc]

theorem stepEntry_append (now : String) (s : SessionState) (e : ParsedEntry)
    (hg : ¬(e.text = "" ∨ lookupKey s.lastBySpeaker e.speaker = some e.text))
    (hc : isContinuation s e = false) :
    stepEntry now s e =
      ({ transcript := s.transcript ++ [{ ts := now, speaker := e.speaker, text := e.text }],
         lastBySpeaker := setKey s.lastBySpeaker e.speaker e.text,
         meetingId := s.meetingId }, true) := by
  simp [stepEntry, hg, hc]

theorem reconcile_nil (now : String) (s : SessionState) :
    reconcile now s [] = (s, false) := rfl

theorem reconcile_cons (now : String) (s : SessionState) (e : ParsedEntry)
    (es : List ParsedEntry) :
    reconcile now s (e :: es) =
      ((reconcile now (stepEntry now s e).1 es).1,
        (stepEntry now s e).2 || (reconcile now (stepEntry now s e).1 es).2) := by
  simp [reconcile]

theorem reconcile_single (now : String) (s : SessionState) (e : ParsedEntry) :
    reconcile now s [e] = stepEntry now s e := by
  simp [reconcile]

/-- Claim C4: if the last transcript entry belongs to speaker S and
`lastBySpeaker[S] = "Hello"`, then reconciling the single parsed entry
`{S, "Hello world"}` keeps the entry count, rewrites the last entry's text
to "Hello world" with its timestamp refreshed to now, creating no new
entry and leaving all earlier entries untouched. -/
theorem C4_continuation_law (now : String) (s : SessionState) (a : TranscriptEntry)
    (hlast : lastEntry? s.transcript = some a)
    (hprev : lookupKey s.lastBySpeaker a.speaker = some "Hello") :
    (reconcile now s [{ speaker := a.speaker, text := "Hello world" }]).1.transcript.length
        = s.transcript.length ∧
    lastEntry? (reconcile now s [{ speaker := a.speaker, text := "Hello world" }]).1.transcript
        = some { ts := now, speaker := a.speaker, text := "Hello world" } ∧
    (∀ i, i + 1 < s.transcript.length →
      (reconcile now s [{ speaker := a.speaker, text := "Hello world" }]).1.transcript[i]?
        = s.transcript[i]?) := by
  have hg : ¬((("Hello world" : String) = "")
      ∨ lookupKey s.lastBySpeaker a.speaker = some "Hello world") := by
    push_neg
    refine ⟨by decide, ?_⟩
    rw [hprev]
    decide
  have hc : isContinuation s { speaker := a.speaker, text := "Hello world" } = true := by
    simp only [isContinuation, hprev, hlast]
    simp [strStartsWith, isPrefixChars]
  rw [reconcile_single, stepEntry_cont now s _ hg hc]
  refine ⟨updateLast_length now _ s.transcript, ?_, ?_⟩
  · simpa using lastEntry?_updateLast now "Hello world" s.transcript a hlast
  · intro i hi
    exact getElem?_updateLast now _ s.transcript i hi

/-- A concrete one-line session used to witness C4. -/
def c4state : SessionState :=
  { transcript := [{ ts := "t0", speaker := "Alice", text := "Hello" }],
    lastBySpeaker := [("Alice", "Hello")], meetingId := "m" }

/-- Witness for C4 at a concrete state. -/
theorem C4_continuation_law_witness :
    (reconcile "t1" c4state [{ speaker := "Alice", text := "Hello world" }]).1.transcript.length
        = c4state.transcript.length ∧
    lastEntry? (reconcile "t1" c4state [{ speaker := "Alice", text := "Hello world" }]).1.transcript
        = some { ts := "t1", speaker := "Alice", text := "Hello world" } ∧
    (∀ i, i + 1 < c4state.transcript.length →
      (reconcile "t1" c4state [{ speaker := "Alice", text := "Hello world" }]).1.transcript[i]?
        = c4state.transcript[i]?) :=
  C4_continuation_law "t1" c4state { ts := "t0", speaker := "Alice", text := "Hello" }
    (by decide) (by decide)

/-- Claim C5: a parsed entry `{S, t}` with non-empty `t` different from
`lastBySpeaker[S]` is appended as a brand-new entry `{now, S, t}` — all
previously-existing entries untouched — whenever the continuation test
fails: `lastBySpeaker[S]` is absent, or `t` does not start with it, or the
last transcript entry's speaker is not `S` (speaker switch / interjection),
regardless of any prefix relationship. -/
theorem C5_turn_break_append (now S t : String) (s : SessionState)
    (ht : t ≠ "")
    (hne : lookupKey s.lastBySpeaker S ≠ some t)
    (hbreak : lookupKey s.lastBySpeaker S = none ∨
      (∃ p, lookupKey s.lastBySpeaker S = some p ∧ strStartsWith t p = false) ∨
      (∃ a, lastEntry? s.transcript = some a ∧ a.speaker ≠ S)) :
    (reconcile now s [{ speaker := S, text := t }]).1.transcript =
      s.transcript ++ [{ ts := now, speaker := S, text := t }] := by
  have hg : ¬(t = "" ∨ lookupKey s.lastBySpeaker S = some t) := by
    push_neg
    exact ⟨ht, hne⟩
  have hc : isContinuation s { speaker := S, text := t } = false := by
    rcases hbreak with h | ⟨p, hp, hsw⟩ | ⟨a, ha, hsp⟩
    · cases hl : lastEntry? s.transcript <;> simp [isContinuation, h, hl]
    · cases hl : lastEntry? s.transcript <;> simp [isContinuation, hp, hl, hsw]
    · cases hk : lookupKey s.lastBySpeaker S <;> simp [isContinuation, hk, ha, hsp]
  rw [reconcile_single, stepEntry_append now s _ hg hc]

/-- Witness for C5: speaker switch where the new text even extends the other
speaker's last text. -/
theorem C5_turn_break_append_witness :
    (reconcile "t1" c4state [{ speaker := "Bob", text := "Yo" }]).1.transcript =
      c4state.transcript ++ [{ ts := "t1", speaker := "Bob", text := "Yo" }] :=
  C5_turn_break_append "t1" "Bob" "Yo" c4state (by decide) (by decide)
    (Or.inl (by decide))

/-- Helper: the resulting state of a two-entry reconcile call is the second
step applied to the first step's state. -/
theorem reconcile_pair_fst (now : String) (s : SessionState) (e1 e2 : ParsedEntry) :
    (reconcile now s [e1, e2]).1 = (stepEntry now (stepEntry now s e1).1 e2).1 := by
  simp [reconcile]

/-- Claim C10: from an empty SessionState, one reconcile call with two
same-speaker entries `[{S, t1}, {S, t2}]`, both non-empty and `t1` a prefix
of `t2`, yields exactly one transcript entry `{S, t2}` with
`lastBySpeaker[S] = t2`: the second block is merged as a continuation of
the first within the same snapshot. -/
theorem C10_same_snapshot_merge (now mid t1 t2 S : String)
    (h1 : t1 ≠ "") (h2 : t2 ≠ "") (hp : strStartsWith t2 t1 = true) :
    (reconcile now { transcript := [], lastBySpeaker := [], meetingId := mid }
        [{ speaker := S, text := t1 }, { speaker := S, text := t2 }]).1.transcript =
      [{ ts := now, speaker := S, text := t2 }] ∧
    lookupKey (reconcile now { transcript := [], lastBySpeaker := [], meetingId := mid }
        [{ speaker := S, text := t1 }, { speaker := S, text := t2 }]).1.lastBySpeaker S =
      some t2 := by
  have hg1 : ¬(t1 = "" ∨ lookupKey ([] : List (String × String)) S = some t1) := by
    push_neg
    exact ⟨h1, by simp [lookupKey]⟩
  have hc1 : isContinuation (⟨[], [], mid⟩ : SessionState) ⟨S, t1⟩ = false := by
    simp [isContinuation, lookupKey]
  have step1 : (stepEntry now (⟨[], [], mid⟩ : SessionState) ⟨S, t1⟩).1 =
      (⟨[⟨now, S, t1⟩], [(S, t1)], mid⟩ : SessionState) := by
    rw [stepEntry_append now _ _ hg1 hc1]
    simp [setKey]
  rw [reconcile_pair_fst, step1]
  by_cases heq : t2 = t1
  · subst heq
    have hskip : stepEntry now (⟨[⟨now, S, t2⟩], [(S, t2)], mid⟩ : SessionState) ⟨S, t2⟩ =
        ((⟨[⟨now, S, t2⟩], [(S, t2)], mid⟩ : SessionState), false) := by
      apply stepEntry_skip
      simp [lookupKey]
    rw [hskip]
    exact ⟨rfl, by simp [lookupKey]⟩
  · have hlk : lookupKey [(S, t1)] S = some t1 := by simp [lookupKey]
    have hg2 : ¬(t2 = "" ∨ lookupKey ([(S, t1)] : List (String × String)) S = some t2) := by
      push_neg
      refine ⟨h2, ?_⟩
      rw [hlk]
      intro hh
      exact heq (Option.some.inj hh).symm
    have hc2 : isContinuation (⟨[⟨now, S, t1⟩], [(S, t1)], mid⟩ : SessionState) ⟨S, t2⟩
        = true := by
      simp [isContinuation, lookupKey, lastEntry?, h1, hp]
    rw [stepEntry_cont now _ _ hg2 hc2]
    exact ⟨by simp [updateLast], by simp [setKey, lookupKey]⟩

/-- Witness for C10 at concrete texts. -/
theorem C10_same_snapshot_merge_witness :
    (reconcile "t1" { transcript := [], lastBySpeaker := [], meetingId := "m" }
        [{ speaker := "Ann", text := "Hi" }, { speaker := "Ann", text := "Hi all" }]).1.transcript =
      [{ ts := "t1", speaker := "Ann", text := "Hi all" }] ∧
    lookupKey (reconcile "t1" { transcript := [], lastBySpeaker := [], meetingId := "m" }
        [{ speaker := "Ann", text := "Hi" }, { speaker := "Ann", text := "Hi all" }]).1.lastBySpeaker
      "Ann" = some "Hi all" :=
  C10_same_snapshot_merge "t1" "m" "Hi" "Hi all" "Ann" (by decide) (by decide) (by decide)

/-- Helper: the state of a reconcile call on `e :: es`, first component. -/
theorem reconcile_cons_fst (now : String) (s : SessionState) (e : ParsedEntry)
    (es : List ParsedEntry) :
    (reconcile now s (e :: es)).1 = (reconcile now (stepEntry now s e).1 es).1 := by
  simp [reconcile]

/-- Helper: a step for another speaker does not change this speaker's
`lastBySpeaker` association. -/
theorem stepEntry_lookup_ne (now : String) (s : SessionState) (e : ParsedEntry)
    (S : String) (h : S ≠ e.speaker) :
    lookupKey (stepEntry now s e).1.lastBySpeaker S = lookupKey s.lastBySpeaker S := by
  by_cases hg : e.text = "" ∨ lookupKey s.lastBySpeaker e.speaker = some e.text
  · rw [stepEntry_skip now s e hg]
  · cases hcb : isContinuation s e with
    | true =>
      rw [stepEntry_cont now s e hg hcb]
      exact lookupKey_setKey_ne _ _ _ _ h
    | false =>
      rw [stepEntry_append now s e hg hcb]
      exact lookupKey_setKey_ne _ _ _ _ h

/-- Helper: a reconcile call over entries that never mention speaker `S`
leaves `lastBySpeaker[S]` unchanged. -/
theorem reconcile_lookup_of_not_mem (now : String) (S : String) :
    ∀ (es : List ParsedEntry) (s : SessionState), (∀ e ∈ es, S ≠ e.speaker) →
      lookupKey (reconcile now s es).1.lastBySpeaker S = lookupKey s.lastBySpeaker S
  | [], _, _ => rfl
  | e :: es, s, h => by
    rw [reconcile_cons_fst]
    rw [reconcile_lookup_of_not_mem now S es (stepEntry now s e).1
      (fun e' he' => h e' (List.mem_cons_of_mem _ he'))]
    exact stepEntry_lookup_ne now s e S (h e (List.mem_cons_self _ _))

/-- Helper: after a step on `{S, t}` with non-empty `t`,
`lastBySpeaker[S] = t` (whether the step skipped, merged or appended). -/
theorem stepEntry_sets (now : String) (s : SessionState) (e : ParsedEntry)
    (ht : e.text ≠ "") :
    lookupKey (stepEntry now s e).1.lastBySpeaker e.speaker = some e.text := by
  by_cases hg : e.text = "" ∨ lookupKey s.lastBySpeaker e.speaker = some e.text
  · rw [stepEntry_skip now s e hg]
    rcases hg with hg | hg
    · exact absurd hg ht
    · exact hg
  · cases hcb : isContinuation s e with
    | true =>
      rw [stepEntry_cont now s e hg hcb]
      exact lookupKey_setKey_self _ _ _
    | false =>
      rw [stepEntry_append now s e hg hcb]
      exact lookupKey_setKey_self _ _ _

/-- Counterexample to claim C6 as stated: with a parsed sequence that
contains the same speaker twice (texts "ab" then "a"), the second
identical reconcile call reports `changed = true` and alters the
transcript. -/
theorem C6_counterexample :
    (reconcile "t2"
        (reconcile "t1" { transcript := [], lastBySpeaker := [], meetingId := "m" }
          [{ speaker := "A", text := "ab" }, { speaker := "A", text := "a" }]).1
        [{ speaker := "A", text := "ab" }, { speaker := "A", text := "a" }]).2 = true ∧
    (reconcile "t2"
        (reconcile "t1" { transcript := [], lastBySpeaker := [], meetingId := "m" }
          [{ speaker := "A", text := "ab" }, { speaker := "A", text := "a" }]).1
        [{ speaker := "A", text := "ab" }, { speaker := "A", text := "a" }]).1.transcript ≠
      (reconcile "t1" { transcript := [], lastBySpeaker := [], meetingId := "m" }
        [{ speaker := "A", text := "ab" }, { speaker := "A", text := "a" }]).1.transcript := by
  decide

/-- Claim C6 as amended: for parsed sequences in which no speaker occurs
twice (the parser's defined output shape, at most one block per speaker),
a second reconcile call with the identical sequence returns
`changed = false` and leaves the state — transcript, lastBySpeaker and
all timestamps — exactly as the first call left it. -/
theorem C6_idempotent_distinct (now1 now2 : String) :
    ∀ (es : List ParsedEntry) (s : SessionState),
      es.Pairwise (fun a b => a.speaker ≠ b.speaker) →
      reconcile now2 (reconcile now1 s es).1 es = ((reconcile now1 s es).1, false)
  | [], _, _ => rfl
  | e :: es, s, hpw => by
    rcases List.pairwise_cons.mp hpw with ⟨hhead, htail⟩
    have hfirst : (reconcile now1 s (e :: es)).1 =
        (reconcile now1 (stepEntry now1 s e).1 es).1 :=
      reconcile_cons_fst now1 s e es
    have hlk : lookupKey
          (reconcile now1 (stepEntry now1 s e).1 es).1.lastBySpeaker e.speaker =
        lookupKey (stepEntry now1 s e).1.lastBySpeaker e.speaker :=
      reconcile_lookup_of_not_mem now1 e.speaker es (stepEntry now1 s e).1
        (fun e' he' => hhead e' he')
    have hskip2 : stepEntry now2 (reconcile now1 (stepEntry now1 s e).1 es).1 e =
        ((reconcile now1 (stepEntry now1 s e).1 es).1, false) := by
      by_cases ht : e.text = ""
      · exact stepEntry_skip _ _ _ (Or.inl ht)
      · refine stepEntry_skip _ _ _ (Or.inr ?_)
        rw [hlk]
        exact stepEntry_sets now1 s e ht
    rw [hfirst, reconcile_cons, hskip2]
    simp [C6_idempotent_distinct now1 now2 es (stepEntry now1 s e).1 htail]

/-- Witness for the amended C6 on a concrete two-speaker sequence. -/
theorem C6_idempotent_distinct_witness :
    reconcile "t2"
        (reconcile "t1" { transcript := [], lastBySpeaker := [], meetingId := "m" }
          [{ speaker := "A", text := "x" }, { speaker := "B", text := "y" }]).1
        [{ speaker := "A", text := "x" }, { speaker := "B", text := "y" }] =
      ((reconcile "t1" { transcript := [], lastBySpeaker := [], meetingId := "m" }
          [{ speaker := "A", text := "x" }, { speaker := "B", text := "y" }]).1, false) :=
  C6_idempotent_distinct "t1" "t2"
    [{ speaker := "A", text := "x" }, { speaker := "B", text := "y" }]
    { transcript := [], lastBySpeaker := [], meetingId := "m" } (by decide)

/-- Frame relation between a transcript before and after an engine step:
length never decreases, all entries but the last are bit-identical, every
pre-existing position keeps its speaker, and non-emptiness is preserved. -/
def FrameOK (t t' : List TranscriptEntry) : Prop :=
  t.length ≤ t'.length ∧
  (∀ i, i + 1 < t.length → t'[i]? = t[i]?) ∧
  (∀ i, i < t.length →
    (t'[i]?).map TranscriptEntry.speaker = (t[i]?).map TranscriptEntry.speaker) ∧
  (t ≠ [] → t' ≠ [])

theorem frameOK_refl (t : List TranscriptEntry) : FrameOK t t :=
  ⟨le_refl _, fun _ _ => rfl, fun _ _ => rfl, id⟩

theorem frameOK_trans {t t1 t2 : List TranscriptEntry}
    (h : FrameOK t t1) (h' : FrameOK t1 t2) : FrameOK t t2 := by
  obtain ⟨hl, he, hs, hn⟩ := h
  obtain ⟨hl', he', hs', hn'⟩ := h'
  refine ⟨le_trans hl hl', ?_, ?_, fun hne => hn' (hn hne)⟩
  · intro i hi
    rw [he' i (lt_of_lt_of_le hi hl), he i hi]
  · intro i hi
    rw [hs' i (lt_of_lt_of_le hi hl), hs i hi]

theorem frameOK_updateLast (now t : String) (l : List TranscriptEntry) :
    FrameOK l (updateLast now t l) := by
  refine ⟨le_of_eq (updateLast_length now t l).symm,
    fun i hi => getElem?_updateLast now t l i hi,
    fun i hi => speaker_getElem?_updateLast now t l i hi, ?_⟩
  intro hne
  have : 0 < (updateLast now t l).length := by
    rw [updateLast_length]
    exact List.length_pos.mpr hne
  exact List.ne_nil_of_length_pos this

theorem frameOK_concat (l : List TranscriptEntry) (x : TranscriptEntry) :
    FrameOK l (l ++ [x]) := by
  refine ⟨by simp, ?_, ?_, by simp⟩
  · intro i hi
    exact getElem?_append_left' l [x] i (Nat.lt_of_succ_lt hi)
  · intro i hi
    rw [getElem?_append_left' l [x] i hi]

theorem frameOK_stepEntry (now : String) (s : SessionState) (e : ParsedEntry) :
    FrameOK s.transcript (stepEntry now s e).1.transcript := by
  by_cases hg : e.text = "" ∨ lookupKey s.lastBySpeaker e.speaker = some e.text
  · rw [stepEntry_skip now s e hg]
    exact frameOK_refl _
  · cases hcb : isContinuation s e with
    | true =>
      rw [stepEntry_cont now s e hg hcb]
      exact frameOK_updateLast now e.text s.transcript
    | false =>
      rw [stepEntry_append now s e hg hcb]
      exact frameOK_concat s.transcript _

theorem frameOK_reconcile (now : String) :
    ∀ (es : List ParsedEntry) (s : SessionState),
      FrameOK s.transcript (reconcile now s es).1.transcript
  | [], _ => frameOK_refl _
  | e :: es, s => by
    rw [reconcile_cons_fst]
    exact frameOK_trans (frameOK_stepEntry now s e)
      (frameOK_reconcile now es (stepEntry now s e).1)

/-- Claim C7: every reconcile invocation leaves all transcript entries but
the last unchanged, never reorders or deletes entries (each pre-existing
position keeps its content, the last at worst keeps its speaker), never
decreases the length, and never empties a non-empty transcript; only the
explicit clear operation and the meeting-change reset empty the
sequence. -/
theorem C7_frame_effect (now newId : String) (s : SessionState) (es : List ParsedEntry) :
    s.transcript.length ≤ (reconcile now s es).1.transcript.length ∧
    (∀ i, i + 1 < s.transcript.length →
      (reconcile now s es).1.transcript[i]? = s.transcript[i]?) ∧
    (∀ i, i < s.transcript.length →
      ((reconcile now s es).1.transcript[i]?).map TranscriptEntry.speaker =
        (s.transcript[i]?).map TranscriptEntry.speaker) ∧
    (s.transcript ≠ [] → (reconcile now s es).1.transcript ≠ []) ∧
    (clearSession s).transcript = [] ∧
    (resetSession s newId).transcript = [] := by
  obtain ⟨h1, h2, h3, h4⟩ := frameOK_reconcile now es s
  exact ⟨h1, h2, h3, h4, rfl, rfl⟩

/-- A concrete two-line session used to witness C7. -/
def c7state : SessionState :=
  { transcript := [{ ts := "t0", speaker := "A", text := "a" },
                   { ts := "t0", speaker := "B", text := "b" }],
    lastBySpeaker := [("A", "a"), ("B", "b")], meetingId := "m" }

/-- Witness for C7 at a concrete state and parsed sequence. -/
theorem C7_frame_effect_witness :
    c7state.transcript.length ≤
      (reconcile "t1" c7state [{ speaker := "B", text := "bb" }]).1.transcript.length ∧
    (reconcile "t1" c7state [{ speaker := "B", text := "bb" }]).1.transcript[0]? =
      c7state.transcript[0]? ∧
    ((reconcile "t1" c7state [{ speaker := "B", text := "bb" }]).1.transcript[1]?).map
        TranscriptEntry.speaker = (c7state.transcript[1]?).map TranscriptEntry.speaker ∧
    (reconcile "t1" c7state [{ speaker := "B", text := "bb" }]).1.transcript ≠ [] ∧
    (clearSession c7state).transcript = [] ∧
    (resetSession c7state "n").transcript = [] := by
  obtain ⟨h1, h2, h3, h4, h5, h6⟩ :=
    C7_frame_effect "t1" "n" c7state [{ speaker := "B", text := "bb" }]
  exact ⟨h1, h2 0 (by decide), h3 1 (by decide), h4 (by decide), h5, h6⟩

/-- The text of the most recent transcript entry of a given speaker. -/
def lastTextOf (S : String) : List TranscriptEntry → Option String
  | [] => none
  | e :: rest =>
    match lastTextOf S rest with
    | some t => some t
    | none => if e.speaker = S then some e.text else none

theorem lastTextOf_cons (S : String) (e : TranscriptEntry) (rest : List TranscriptEntry) :
    lastTextOf S (e :: rest) =
      match lastTextOf S rest with
      | some t => some t
      | none => if e.speaker = S then some e.text else none := rfl

theorem lastTextOf_concat (S : String) (e : TranscriptEntry) :
    ∀ l : List TranscriptEntry,
      lastTextOf S (l ++ [e]) = if e.speaker = S then some e.text else lastTextOf S l
  | [] => by
    by_cases h : e.speaker = S <;> simp [lastTextOf, h]
  | x :: l => by
    have ih := lastTextOf_concat S e l
    rw [List.cons_append, lastTextOf_cons, ih, lastTextOf_cons]
    by_cases h : e.speaker = S
    · simp [h]
    · simp [h]

theorem lastTextOf_getLast :
    ∀ {l : List TranscriptEntry} {a : TranscriptEntry}, lastEntry? l = some a →
      lastTextOf a.speaker l = some a.text
  | [], a, h => by simp [lastEntry?] at h
  | [x], a, h => by
    simp only [lastEntry?, Option.some.injEq] at h
    subst h
    simp [lastTextOf]
  | x :: y :: rest, a, h => by
    have h' : lastEntry? (y :: rest) = some a := by simpa only [lastEntry?] using h
    have ih := lastTextOf_getLast h'
    rw [lastTextOf_cons, ih]

theorem lastTextOf_updateLast_same (now t S : String) :
    ∀ {l : List TranscriptEntry} {a : TranscriptEntry}, lastEntry? l = some a →
      a.speaker = S → lastTextOf S (updateLast now t l) = some t
  | [], a, h, _ => by simp [lastEntry?] at h
  | [x], a, h, hS => by
    simp only [lastEntry?, Option.some.injEq] at h
    subst h
    simp [updateLast, lastTextOf, hS]
  | x :: y :: rest, a, h, hS => by
    have h' : lastEntry? (y :: rest) = some a := by simpa only [lastEntry?] using h
    have ih := lastTextOf_updateLast_same now t S h' hS
    simp only [updateLast]
    rw [lastTextOf_cons, ih]

theorem lastTextOf_updateLast_ne (now t S : String) :
    ∀ {l : List TranscriptEntry} {a : TranscriptEntry}, lastEntry? l = some a →
      a.speaker ≠ S → lastTextOf S (updateLast now t l) = lastTextOf S l
  | [], a, h, _ => by simp [lastEntry?] at h
  | [x], a, h, hS => by
    simp only [lastEntry?, Option.some.injEq] at h
    subst h
    simp [updateLast, lastTextOf, hS]
  | x :: y :: rest, a, h, hS => by
    have h' : lastEntry? (y :: rest) = some a := by simpa only [lastEntry?] using h
    have ih := lastTextOf_updateLast_ne now t S h' hS
    simp only [updateLast]
    rw [lastTextOf_cons, ih, lastTextOf_cons S x (y :: rest)]

/-- Decomposition of a successful continuation test. -/
theorem isContinuation_true_elim {s : SessionState} {e : ParsedEntry}
    (h : isContinuation s e = true) :
    ∃ p last, lookupKey s.lastBySpeaker e.speaker = some p ∧
      lastEntry? s.transcript = some last ∧ p ≠ "" ∧
      strStartsWith e.text p = true ∧ last.speaker = e.speaker := by
  unfold isContinuation at h
  cases hk : lookupKey s.lastBySpeaker e.speaker with
  | none =>
    rw [hk] at h
    cases hl : lastEntry? s.transcript <;> rw [hl] at h <;> simp at h
  | some p =>
    cases hl : lastEntry? s.transcript with
    | none =>
      rw [hk, hl] at h
      simp at h
    | some last =>
      rw [hk, hl] at h
      simp only [Bool.and_eq_true, Bool.not_eq_eq_eq_not, Bool.not_true, beq_eq_false_iff_ne,
        ne_eq, beq_iff_eq] at h
      exact ⟨p, last, rfl, rfl, h.1.1, h.1.2, h.2⟩

/-- Assembly of a successful continuation test. -/
theorem isContinuation_true_intro {s : SessionState} {e : ParsedEntry}
    {p : String} {last : TranscriptEntry}
    (hk : lookupKey s.lastBySpeaker e.speaker = some p)
    (hl : lastEntry? s.transcript = some last)
    (hpne : p ≠ "") (hsw : strStartsWith e.text p = true)
    (hsp : last.speaker = e.speaker) : isContinuation s e = true := by
  unfold isContinuation
  rw [hk, hl]
  simp [hpne, hsw, hsp]

/-- Invariant: every defined `lastBySpeaker[S]` is the text of the most
recent transcript entry of speaker `S`. -/
def InvA (s : SessionState) : Prop :=
  ∀ S v, lookupKey s.lastBySpeaker S = some v → lastTextOf S s.transcript = some v

/-- Invariant: `lastBySpeaker` never stores an empty text. -/
def InvB (s : SessionState) : Prop :=
  ∀ p ∈ s.lastBySpeaker, p.2 ≠ ""

/-- Invariant: every speaker occurring in the transcript has a defined
`lastBySpeaker` association (true from a fresh session, broken by the
restore path, which restores the transcript but not `lastBySpeaker`). -/
def InvC (s : SessionState) : Prop :=
  ∀ a ∈ s.transcript, (lookupKey s.lastBySpeaker a.speaker).isSome

theorem stepEntry_invA (now : String) (s : SessionState) (e : ParsedEntry)
    (h : InvA s) : InvA (stepEntry now s e).1 := by
  by_cases hg : e.text = "" ∨ lookupKey s.lastBySpeaker e.speaker = some e.text
  · rw [stepEntry_skip now s e hg]
    exact h
  · cases hcb : isContinuation s e with
    | true =>
      obtain ⟨p, last, hp, hl, hpne, hsw, hsp⟩ := isContinuation_true_elim hcb
      rw [stepEntry_cont now s e hg hcb]
      intro S v hv
      by_cases hS : S = e.speaker
      · subst hS
        rw [lookupKey_setKey_self] at hv
        rw [lastTextOf_updateLast_same now e.text e.speaker hl hsp]
        exact hv
      · rw [lookupKey_setKey_ne _ _ _ _ hS] at hv
        rw [lastTextOf_updateLast_ne now e.text S hl (fun hh => hS (hh ▸ hsp))]
        exact h S v hv
    | false =>
      rw [stepEntry_append now s e hg hcb]
      intro S v hv
      rw [lastTextOf_concat]
      by_cases hS : S = e.speaker
      · subst hS
        rw [lookupKey_setKey_self] at hv
        simpa using hv
      · rw [lookupKey_setKey_ne _ _ _ _ hS] at hv
        rw [if_neg (fun hh => hS hh.symm)]
        exact h S v hv

theorem reconcile_invA (now : String) :
    ∀ (es : List ParsedEntry) (s : SessionState), InvA s → InvA (reconcile now s es).1
  | [], _, h => h
  | e :: es, s, h => by
    rw [reconcile_cons_fst]
    exact reconcile_invA now es (stepEntry now s e).1 (stepEntry_invA now s e h)

theorem invA_of_empty_map {s : SessionState} (h : s.lastBySpeaker = []) : InvA s := by
  intro S v hv
  rw [h] at hv
  simp [lookupKey] at hv

/-- InvA holds in every reachable state, including after a storage
restore. -/
theorem reachable_invA : ∀ {s : SessionState}, Reachable s → InvA s := by
  intro s h
  induction h with
  | init stored mid => exact invA_of_empty_map rfl
  | step _ hstep ih =>
    cases hstep with
    | reconcile now es => exact reconcile_invA now es _ ih
    | clear => exact invA_of_empty_map rfl
    | reset newId => exact invA_of_empty_map rfl

theorem stepEntry_invB (now : String) (s : SessionState) (e : ParsedEntry)
    (h : InvB s) : InvB (stepEntry now s e).1 := by
  by_cases hg : e.text = "" ∨ lookupKey s.lastBySpeaker e.speaker = some e.text
  · rw [stepEntry_skip now s e hg]
    exact h
  · have ht : e.text ≠ "" := fun hh => hg (Or.inl hh)
    cases hcb : isContinuation s e with
    | true =>
      rw [stepEntry_cont now s e hg hcb]
      intro p hp
      rcases mem_setKey hp with hp' | hp'
      · rw [hp']
        exact ht
      · exact h p hp'
    | false =>
      rw [stepEntry_append now s e hg hcb]
      intro p hp
      rcases mem_setKey hp with hp' | hp'
      · rw [hp']
        exact ht
      · exact h p hp'

theorem reconcile_invB (now : String) :
    ∀ (es : List ParsedEntry) (s : SessionState), InvB s → InvB (reconcile now s es).1
  | [], _, h => h
  | e :: es, s, h => by
    rw [reconcile_cons_fst]
    exact reconcile_invB now es (stepEntry now s e).1 (stepEntry_invB now s e h)

theorem invB_of_empty_map {s : SessionState} (h : s.lastBySpeaker = []) : InvB s := by
  intro p hp
  rw [h] at hp
  simp at hp

theorem reachable_invB : ∀ {s : SessionState}, Reachable s → InvB s := by
  intro s h
  induction h with
  | init stored mid => exact invB_of_empty_map rfl
  | step _ hstep ih =>
    cases hstep with
    | reconcile now es => exact reconcile_invB now es _ ih
    | clear => exact invB_of_empty_map rfl
    | reset newId => exact invB_of_empty_map rfl

theorem lookupKey_setKey_isSome (m : List (String × String)) (k v S : String)
    (h : (lookupKey m S).isSome) : (lookupKey (setKey m k v) S).isSome := by
  by_cases hS : S = k
  · subst hS
    rw [lookupKey_setKey_self]
    rfl
  · rw [lookupKey_setKey_ne _ _ _ _ hS]
    exact h

theorem stepEntry_invC (now : String) (s : SessionState) (e : ParsedEntry)
    (h : InvC s) : InvC (stepEntry now s e).1 := by
  by_cases hg : e.text = "" ∨ lookupKey s.lastBySpeaker e.speaker = some e.text
  · rw [stepEntry_skip now s e hg]
    exact h
  · cases hcb : isContinuation s e with
    | true =>
      rw [stepEntry_cont now s e hg hcb]
      intro a ha
      rcases mem_updateLast now e.text ha with ⟨y, hy, hay⟩
      rw [hay]
      exact lookupKey_setKey_isSome _ _ _ _ (h y hy)
    | false =>
      rw [stepEntry_append now s e hg hcb]
      intro a ha
      rcases List.mem_append.mp ha with ha' | ha'
      · exact lookupKey_setKey_isSome _ _ _ _ (h a ha')
      · have : a.speaker = e.speaker := by
          rcases List.mem_singleton.mp ha' with rfl
          rfl
        rw [this, lookupKey_setKey_self]
        rfl

theorem reconcile_invC (now : String) :
    ∀ (es : List ParsedEntry) (s : SessionState), InvC s → InvC (reconcile now s es).1
  | [], _, h => h
  | e :: es, s, h => by
    rw [reconcile_cons_fst]
    exact reconcile_invC now es (stepEntry now s e).1 (stepEntry_invC now s e h)

theorem invC_of_empty_transcript {s : SessionState} (h : s.transcript = []) : InvC s := by
  intro a ha
  rw [h] at ha
  simp at ha

/-- InvC holds in every state reachable from a fresh session. -/
theorem reachableFresh_invC : ∀ {s : SessionState}, ReachableFresh s → InvC s := by
  intro s h
  induction h with
  | init mid => exact invC_of_empty_transcript rfl
  | step _ hstep ih =>
    cases hstep with
    | reconcile now es => exact reconcile_invC now es _ ih
    | clear => exact invC_of_empty_transcript rfl
    | reset newId => exact invC_of_empty_transcript rfl

/-- Every fresh-reachable state is reachable. -/
theorem reachableFresh_reachable : ∀ {s : SessionState}, ReachableFresh s → Reachable s := by
  intro s h
  induction h with
  | init mid => exact Reachable.init [] mid
  | step _ hstep ih => exact Reachable.step ih hstep

theorem mem_of_lookupKey :
    ∀ {m : List (String × String)} {k v : String}, lookupKey m k = some v → (k, v) ∈ m
  | [], k, v, h => by simp [lookupKey] at h
  | (k', v') :: rest, k, v, h => by
    by_cases hk : k' = k
    · subst hk
      simp [lookupKey] at h
      simp [h]
    · rw [lookupKey] at h
      rw [if_neg hk] at h
      exact List.mem_cons_of_mem _ (mem_of_lookupKey h)

/-- Helper: reconcile never un-defines a `lastBySpeaker` association. -/
theorem reconcile_lookup_isSome (now : String) :
    ∀ (es : List ParsedEntry) (s : SessionState) (S : String),
      (lookupKey s.lastBySpeaker S).isSome →
      (lookupKey (reconcile now s es).1.lastBySpeaker S).isSome
  | [], _, _, h => h
  | e :: es, s, S, h => by
    rw [reconcile_cons_fst]
    refine reconcile_lookup_isSome now es (stepEntry now s e).1 S ?_
    by_cases hg : e.text = "" ∨ lookupKey s.lastBySpeaker e.speaker = some e.text
    · rw [stepEntry_skip now s e hg]
      exact h
    · cases hcb : isContinuation s e with
      | true =>
        rw [stepEntry_cont now s e hg hcb]
        exact lookupKey_setKey_isSome _ _ _ _ h
      | false =>
        rw [stepEntry_append now s e hg hcb]
        exact lookupKey_setKey_isSome _ _ _ _ h

/-- Claim C3: in every reachable SessionState, a defined `lastBySpeaker[S]`
equals the text of the most recent transcript entry of speaker `S`; the
association becomes defined exactly when `S` is processed by reconcile with
non-empty text (so it is absent only when `S` has not spoken since the last
reset), and once defined it stays defined across further reconciles. -/
theorem C3_lastBySpeaker_cache (s : SessionState) (h : Reachable s) :
    (∀ S v, lookupKey s.lastBySpeaker S = some v → lastTextOf S s.transcript = some v) ∧
    (∀ now e, (e : ParsedEntry).text ≠ "" →
      lookupKey (stepEntry now s e).1.lastBySpeaker e.speaker = some e.text) ∧
    (∀ now es S, (lookupKey s.lastBySpeaker S).isSome →
      (lookupKey (reconcile now s es).1.lastBySpeaker S).isSome) :=
  ⟨reachable_invA h,
   fun now e ht => stepEntry_sets now s e ht,
   fun now es S hS => reconcile_lookup_isSome now es s S hS⟩

/-- Witness for C3 on a concrete reachable state. -/
theorem C3_lastBySpeaker_cache_witness :
    lastTextOf "A"
        (reconcile "t1" (initState [] "m") [{ speaker := "A", text := "hi" }]).1.transcript =
      some "hi" ∧
    lookupKey (stepEntry "t2"
        (reconcile "t1" (initState [] "m") [{ speaker := "A", text := "hi" }]).1
        { speaker := "A", text := "hi there" }).1.lastBySpeaker "A" = some "hi there" ∧
    (lookupKey (reconcile "t2"
        (reconcile "t1" (initState [] "m") [{ speaker := "A", text := "hi" }]).1
        [{ speaker := "B", text := "yo" }]).1.lastBySpeaker "A").isSome := by
  obtain ⟨h1, h2, h3⟩ := C3_lastBySpeaker_cache
    (reconcile "t1" (initState [] "m") [{ speaker := "A", text := "hi" }]).1
    (Reachable.step (Reachable.init [] "m")
      (SessionStep.reconcile "t1" [{ speaker := "A", text := "hi" }]))
  exact ⟨h1 "A" "hi" (by decide),
    h2 "t2" { speaker := "A", text := "hi there" } (by decide),
    h3 "t2" [{ speaker := "B", text := "yo" }] "A" (by decide)⟩

/-- Two consecutive transcript entries where the earlier one is a
same-speaker strict-prefix continuation left unmerged. -/
def hasUnmergedContinuation : List TranscriptEntry → Bool
  | a :: b :: rest =>
    (a.speaker == b.speaker && a.text != b.text && strStartsWith b.text a.text) ||
      hasUnmergedContinuation (b :: rest)
  | _ => false

/-- Counterexample to claim C2 as stated: the state reached from a fresh
session by reconciling "abc", then the rewrite "ab", then the continuation
"abcd" (all one speaker) is reachable, yet its transcript holds the
consecutive pair S:"abc", S:"abcd" — same speaker, earlier text a strict
prefix of the later — left unmerged. -/
theorem C2_counterexample :
    Reachable (reconcile "t3" (reconcile "t2" (reconcile "t1" (initState [] "m")
        [{ speaker := "S", text := "abc" }]).1
        [{ speaker := "S", text := "ab" }]).1
        [{ speaker := "S", text := "abcd" }]).1 ∧
    (reconcile "t3" (reconcile "t2" (reconcile "t1" (initState [] "m")
        [{ speaker := "S", text := "abc" }]).1
        [{ speaker := "S", text := "ab" }]).1
        [{ speaker := "S", text := "abcd" }]).1.transcript =
      [{ ts := "t1", speaker := "S", text := "abc" },
       { ts := "t3", speaker := "S", text := "abcd" }] ∧
    hasUnmergedContinuation (reconcile "t3" (reconcile "t2" (reconcile "t1" (initState [] "m")
        [{ speaker := "S", text := "abc" }]).1
        [{ speaker := "S", text := "ab" }]).1
        [{ speaker := "S", text := "abcd" }]).1.transcript = true :=
  ⟨Reachable.step (Reachable.step (Reachable.step (Reachable.init [] "m")
      (SessionStep.reconcile "t1" [{ speaker := "S", text := "abc" }]))
      (SessionStep.reconcile "t2" [{ speaker := "S", text := "ab" }]))
      (SessionStep.reconcile "t3" [{ speaker := "S", text := "abcd" }]),
   by decide, by decide⟩

/-- Claim C2 as amended: in any state reachable from a fresh (or cleared)
session, a reconcile step never *appends* a strict-prefix continuation of
the last entry — when the last transcript entry has the incoming entry's
speaker and its text is a strict prefix of the incoming text, the step
collapses the continuation into that entry in place, keeping the entry
count.  (The stated global invariant fails: after a non-prefix caption
rewrite, a later in-place continuation can leave a same-speaker
strict-prefix pair adjacent, and the startup-restore path drops
`lastBySpeaker` entirely.) -/
theorem C2_amended_collapse (s : SessionState) (hreach : ReachableFresh s)
    (now : String) (e : ParsedEntry) (a : TranscriptEntry)
    (hlast : lastEntry? s.transcript = some a)
    (hsp : a.speaker = e.speaker)
    (ht : e.text ≠ "") (hne : e.text ≠ a.text)
    (hpre : strStartsWith e.text a.text = true) :
    (stepEntry now s e).1.transcript = updateLast now e.text s.transcript ∧
    (stepEntry now s e).1.transcript.length = s.transcript.length := by
  have hA : InvA s := reachable_invA (reachableFresh_reachable hreach)
  have hB : InvB s := reachable_invB (reachableFresh_reachable hreach)
  have hC : InvC s := reachableFresh_invC hreach
  have hmem : a ∈ s.transcript := lastEntry?_mem hlast
  obtain ⟨p, hp⟩ := Option.isSome_iff_exists.mp (hC a hmem)
  have hpa : p = a.text := by
    have h1 := hA a.speaker p hp
    have h2 := lastTextOf_getLast hlast
    rw [h1] at h2
    exact Option.some.inj h2
  subst hpa
  have hpne : a.text ≠ "" := hB (a.speaker, a.text) (mem_of_lookupKey hp)
  have hg : ¬(e.text = "" ∨ lookupKey s.lastBySpeaker e.speaker = some e.text) := by
    push_neg
    refine ⟨ht, ?_⟩
    rw [← hsp, hp]
    intro hh
    exact hne (Option.some.inj hh).symm
  have hc : isContinuation s e = true :=
    isContinuation_true_intro (by rw [← hsp]; exact hp) hlast hpne hpre hsp
  rw [stepEntry_cont now s e hg hc]
  exact ⟨rfl, updateLast_length now e.text s.transcript⟩

/-- Witness for the amended C2 on a concrete fresh-reachable state. -/
theorem C2_amended_collapse_witness :
    (stepEntry "t2" (reconcile "t1" (initState [] "m")
        [{ speaker := "A", text := "Hi" }]).1
      { speaker := "A", text := "Hi there" }).1.transcript =
      updateLast "t2" "Hi there"
        (reconcile "t1" (initState [] "m")
          [{ speaker := "A", text := "Hi" }]).1.transcript ∧
    (stepEntry "t2" (reconcile "t1" (initState [] "m")
        [{ speaker := "A", text := "Hi" }]).1
      { speaker := "A", text := "Hi there" }).1.transcript.length =
      (reconcile "t1" (initState [] "m")
        [{ speaker := "A", text := "Hi" }]).1.transcript.length :=
  C2_amended_collapse
    (reconcile "t1" (initState [] "m") [{ speaker := "A", text := "Hi" }]).1
    (ReachableFresh.step (ReachableFresh.init "m")
      (SessionStep.reconcile "t1" [{ speaker := "A", text := "Hi" }]))
    "t2" { speaker := "A", text := "Hi there" }
    { ts := "t1", speaker := "A", text := "Hi" }
    (by decide) (by decide) (by decide) (by decide) (by decide)

/-- A DOM node: either a text node or an element with an ordered list of
child nodes. -/
inductive Node where
  | text (s : String)
  | elem (kids : List Node)

mutual

/-- JS `node.textContent`: concatenation of all descendant text, in
document order. -/
def textContent : Node → String
  | Node.text s => s
  | Node.elem kids => textContentList kids

/-- `textContent` over a child list. -/
def textContentList : List Node → String
  | [] => ""
  | n :: ns => textContent n ++ textContentList ns

end

/-- Whether a node is an element (and so appears in `children`). -/
def isElemNode : Node → Bool
  | Node.elem _ => true
  | Node.text _ => false

/-- JS `el.children`: the element children, in order. -/
def elemChildren : Node → List Node
  | Node.text _ => []
  | Node.elem kids => kids.filter (fun k => isElemNode k)

/-- The whitespace class used by the JS regex `\s` and by `trim()`,
restricted to the four common whitespace characters. -/
def isWS (c : Char) : Bool :=
  c == ' ' || c == '\t' || c == '\n' || c == '\r'

/-- The maximal non-whitespace words of a character list, in order. -/
def wordsAux : List Char → List Char → List (List Char)
  | [], acc => if acc.isEmpty then [] else [acc.reverse]
  | c :: cs, acc =>
    if isWS c then
      if acc.isEmpty then wordsAux cs [] else acc.reverse :: wordsAux cs []
    else wordsAux cs (c :: acc)

/-- JS `str.replace(/\s+/g, " ").trim()`: collapse whitespace runs to a
single space and trim the ends — i.e. the words joined by single
spaces. -/
def normalizeWS (s : String) : String :=
  String.mk (List.intercalate [' '] (wordsAux s.data []))

/-- JS `str.trim()`. -/
def strTrim (s : String) : String :=
  String.mk (((s.data.dropWhile (fun c => isWS c)).reverse.dropWhile
    (fun c => isWS c)).reverse)

/-- JS `parts.join(" ")`. -/
def joinSpace : List String → String
  | [] => ""
  | [s] => s
  | s :: rest => s ++ " " ++ joinSpace rest

/-- The per-block body of the loop in `parseCaptions` (content.js lines
102-115): a block needs at least two element children; the first child's
trimmed text is the speaker ("Unknown" when empty), the remaining
children's texts are joined with spaces and whitespace-normalized; blocks
with empty text yield nothing. -/
def parseBlock (block : Node) : Option ParsedEntry :=
  match elemChildren block with
  | speakerEl :: second :: rest =>
    let t := strTrim (textContent speakerEl)
    let speakerName := if t = "" then "Unknown" else t
    let text := normalizeWS (joinSpace ((second :: rest).map textContent))
    if text = "" then none else some { speaker := speakerName, text := text }
  | _ => none

/-- `parseCaptions` (content.js lines 96-125): parse each direct element
child of the container as a speaker block; if none parses, fall back to
the whole container's normalized text as a single "System" entry (or no
entry at all when that text is empty). -/
def parseCaptions (container : Node) : List ParsedEntry :=
  let results := (elemChildren container).filterMap parseBlock
  if results.isEmpty then
    let fallback := normalizeWS (textContent container)
    if fallback = "" then [] else [{ speaker := "System", text := fallback }]
  else results

/-- Claim C9: when no direct child of the caption region yields a
well-formed (speaker, non-empty text) pair — e.g. every block has fewer
than two element children or only whitespace text — `parseCaptions`
returns exactly the single entry `{System, t}` for `t` the region's
whitespace-normalized text content when that is non-empty, and the empty
sequence when it is empty. -/
theorem C9_parser_fallback (container : Node)
    (h : ∀ b ∈ elemChildren container, (elemChildren b).length < 2 ∨
      normalizeWS (joinSpace (((elemChildren b).drop 1).map textContent)) = "") :
    (normalizeWS (textContent container) ≠ "" →
      parseCaptions container =
        [{ speaker := "System", text := normalizeWS (textContent container) }]) ∧
    (normalizeWS (textContent container) = "" → parseCaptions container = []) := by
  have hnil : (elemChildren container).filterMap parseBlock = [] := by
    rw [List.filterMap_eq_nil_iff]
    intro b hb
    rcases h b hb with hlen | htxt
    · unfold parseBlock
      cases hec : elemChildren b with
      | nil => rfl
      | cons x xs =>
        cases xs with
        | nil => rfl
        | cons y ys =>
          rw [hec] at hlen
          simp at hlen
          omega
    · unfold parseBlock
      cases hec : elemChildren b with
      | nil => rfl
      | cons x xs =>
        cases xs with
        | nil => rfl
        | cons y ys =>
          rw [hec] at htxt
          simp only [List.drop_succ_cons, List.drop_zero, List.map_cons] at htxt
          simp [htxt]
  constructor
  · intro hne
    unfold parseCaptions
    rw [hnil]
    simp [hne]
  · intro he
    unfold parseCaptions
    rw [hnil]
    simp [he]

/-- Witness for C9: a container whose single block has only one child. -/
theorem C9_parser_fallback_witness :
    normalizeWS (textContent (Node.elem [Node.elem [Node.text " raw  stuff "]])) ≠ "" ∧
    parseCaptions (Node.elem [Node.elem [Node.text " raw  stuff "]]) =
      [{ speaker := "System",
         text := normalizeWS (textContent (Node.elem [Node.elem [Node.text " raw  stuff "]])) }] := by
  refine ⟨by decide, ?_⟩
  exact (C9_parser_fallback (Node.elem [Node.elem [Node.text " raw  stuff "]])
    (by decide)).1 (by decide)

/-- The full content-script state relevant to navigation handling: the
session state, the `narrowObserverAttached` latch with the region the
observer is attached to (content.js lines 181-200), and the two
chrome.storage.local keys `current_meeting_transcript` /
`current_meeting_id`. -/
structure ContentState where
  session : SessionState
  narrowObserverAttached : Bool
  observedRegion : Option Node
  storedTranscript : Option (List TranscriptEntry)
  storedMeetingId : Option String

/-- `tryNarrowObserver` (content.js lines 187-200): if the latch is set, do
nothing; otherwise, when a caption container is found, re-attach the
observer to it and set the latch.  `container` is the result of
`getCaptionContainer()`. -/
def tryNarrowObserverState (st : ContentState) (container : Option Node) : ContentState :=
  if st.narrowObserverAttached then st
  else
    match container with
    | none => st
    | some c => { st with narrowObserverAttached := true, observedRegion := some c }

/-- `handleNavigation` (content.js lines 226-237): when the freshly-derived
meeting id differs from the stored one, clear the transcript and
`lastBySpeaker`, adopt the new id, clear the latch, remove both persisted
storage keys, and re-run `tryNarrowObserver`; otherwise do nothing. -/
def handleNavigation (st : ContentState) (newId : String) (container : Option Node) :
    ContentState :=
  if newId ≠ st.session.meetingId then
    tryNarrowObserverState
      { session := resetSession st.session newId,
        narrowObserverAttached := false,
        observedRegion := st.observedRegion,
        storedTranscript := none,
        storedMeetingId := none } container
  else st

/-- Claim C8: a navigation check observing a changed meetingId empties the
transcript and `lastBySpeaker`, adopts the new id, removes the persisted
transcript (and id) from durable storage and resets the narrowing latch so
a fresh container is located (the latch stays down when none is found, and
the freshly-found container is attached when one is); an unchanged
meetingId leaves the state untouched. -/
theorem C8_navigation_reset (st : ContentState) (newId : String) (container : Option Node) :
    (newId ≠ st.session.meetingId →
      (handleNavigation st newId container).session.transcript = [] ∧
      (handleNavigation st newId container).session.lastBySpeaker = [] ∧
      (handleNavigation st newId container).session.meetingId = newId ∧
      (handleNavigation st newId container).storedTranscript = none ∧
      (handleNavigation st newId container).storedMeetingId = none ∧
      (container = none → (handleNavigation st newId container).narrowObserverAttached = false) ∧
      (∀ c, container = some c →
        (handleNavigation st newId container).narrowObserverAttached = true ∧
        (handleNavigation st newId container).observedRegion = some c)) ∧
    (newId = st.session.meetingId → handleNavigation st newId container = st) := by
  constructor
  · intro hne
    unfold handleNavigation
    rw [if_pos hne]
    cases container with
    | none =>
      simp [tryNarrowObserverState, resetSession]
    | some c =>
      simp [tryNarrowObserverState, resetSession]
  · intro heq
    unfold handleNavigation
    rw [if_neg (by simp [heq])]

/-- A concrete content-script state used to witness C8. -/
def c8state : ContentState :=
  { session := { transcript := [{ ts := "t0", speaker := "A", text := "a" }],
                 lastBySpeaker := [("A", "a")], meetingId := "abc-defg-hij" },
    narrowObserverAttached := true,
    observedRegion := some (Node.text "old"),
    storedTranscript := some [{ ts := "t0", speaker := "A", text := "a" }],
    storedMeetingId := some "abc-defg-hij" }

/-- Witness for C8 at a concrete state, one changed-id case (with a found
container) and one unchanged-id case. -/
theorem C8_navigation_reset_witness :
    ((handleNavigation c8state "zzz-zzzz-zzz" (some (Node.text "cap"))).session.transcript = [] ∧
     (handleNavigation c8state "zzz-zzzz-zzz" (some (Node.text "cap"))).session.lastBySpeaker = [] ∧
     (handleNavigation c8state "zzz-zzzz-zzz" (some (Node.text "cap"))).session.meetingId = "zzz-zzzz-zzz" ∧
     (handleNavigation c8state "zzz-zzzz-zzz" (some (Node.text "cap"))).storedTranscript = none ∧
     (handleNavigation c8state "zzz-zzzz-zzz" (some (Node.text "cap"))).storedMeetingId = none ∧
     (handleNavigation c8state "zzz-zzzz-zzz" (some (Node.text "cap"))).narrowObserverAttached = true ∧
     (handleNavigation c8state "zzz-zzzz-zzz" (some (Node.text "cap"))).observedRegion =
       some (Node.text "cap")) ∧
    handleNavigation c8state "abc-defg-hij" none = c8state := by
  obtain ⟨hchg, hsame⟩ :=
    C8_navigation_reset c8state "zzz-zzzz-zzz" (some (Node.text "cap"))
  obtain ⟨h1, h2, h3, h4, h5, _, h7⟩ := hchg (by decide)
  refine ⟨⟨h1, h2, h3, h4, h5, ?_, ?_⟩, ?_⟩
  · exact (h7 (Node.text "cap") rfl).1
  · exact (h7 (Node.text "cap") rfl).2
  · exact (C8_navigation_reset c8state "abc-defg-hij" none).2 rfl
